import Mathlib

/-!
Shallow embedding of the go-subcommand option parsing package.

The repository carries two revisions of the engine: the flat iterative one
of `subcommand.go` (namespace `V1`) and the recursive one with arity
support (namespace `V2`).  Go callbacks are modelled as observable events:
running a flag or command function appends an `Event` to a trace (the
user-supplied functions themselves are opaque and modelled as always
succeeding).  Go maps (`innerFlagsLong`, `innerFlagsShort`, `Commands`)
are modelled as association lists in insertion order; `panic` and
`fmt.Errorf` results are modelled as values of `PError`.
-/

namespace Subcommand

/-- `strings.HasPrefix`, on the character lists of the strings. -/
def hasPrefix (s pre : String) : Bool := pre.data.isPrefixOf s.data

/-- Flag kinds (`FlagType`): `Option` takes a value, `Switch` does not. -/
inductive FlagType where
  | Option
  | Switch
deriving DecidableEq

/-- The `Flag` struct: long and short definitions, kind and mandatory bit.
The Go callback field `fn` is modelled by the event trace. -/
structure Flag where
  long : String
  short : String
  description : String
  type : FlagType
  mandatory : Bool
deriving DecidableEq

/-- Structured counterparts of the `error` values the Go code produces via
`fmt.Errorf` and `panic`: each constructor records the data interpolated
into the corresponding message. -/
inductive PError where
  | unknownFlag (arg : String) (scope : String)
  | missingValue (arg : String)
  | missingMandatory (flag : Flag) (scope : String)
  | duplicateFlag (name : String)
  | arityError (scope : String) (expected : Int) (found : Nat)
deriving DecidableEq

/-- Observable callback invocations: a flag function called with the
flag's long name and a value, or a command function called with a name
and the leftovers. -/
inductive Event where
  | flagCall (long : String) (value : String)
  | cmdCall (name : String) (leftOvers : List String)
deriving DecidableEq

namespace V1

/-- `Command` of subcommand.go: the name plus the two flag indices.
`Description`, `Params` and `parent` carry no parse-relevant data and are
dropped; `fn` is observed through the event trace. -/
structure Cmd where
  name : String
  flagsLong : List (String × Flag)
  flagsShort : List (String × Flag)
deriving DecidableEq

/-- `Parser`: the embedded root command, the `Commands` map and `help`. -/
structure Parser where
  root : Cmd
  commands : List (String × Cmd)
  help : Cmd
deriving DecidableEq

/-- `Flags()` (subcommand.go:36-44): the values of the long index. -/
def Flags (c : Cmd) : List Flag := c.flagsLong.map (fun e => e.2)

def lookupLong (c : Cmd) (n : String) : Option Flag :=
  (c.flagsLong.find? (fun e => e.1 == n)).map (fun e => e.2)

def lookupShort (c : Cmd) (n : String) : Option Flag :=
  (c.flagsShort.find? (fun e => e.1 == n)).map (fun e => e.2)

/-- `addFlag` (subcommand.go:167-180): duplicate checks on both indices,
then insertion into the long index and, for a non-empty short name, into
the short index.  The Go `panic` is modelled as `Except.error`. -/
def addFlag (c : Cmd) (f : Flag) : Except PError Cmd :=
  if (c.flagsLong.find? (fun e => e.1 == f.long)).isSome then
    Except.error (PError.duplicateFlag f.long)
  else if (c.flagsShort.find? (fun e => e.1 == f.short)).isSome then
    Except.error (PError.duplicateFlag f.short)
  else
    Except.ok { c with
      flagsLong := c.flagsLong ++ [(f.long, f)],
      flagsShort := if f.short == "" then c.flagsShort
                    else c.flagsShort ++ [(f.short, f)] }

/-- `checkVisited` (subcommand.go:299-315): the first mandatory flag of
the command with no visited flag of the same long name, if any. -/
def checkVisited (visited : List Flag) (c : Cmd) : Option PError :=
  match (Flags c).find?
      (fun f => f.mandatory && !(visited.any (fun v => v.long == f.long))) with
  | some f => some (PError.missingMandatory f c.name)
  | none => none

/-- Deferred calls built by `flagCaller` and `commandCaller`
(subcommand.go:291-296).  A command thunk reads the leftovers at
execution time, mirroring the Go closure capturing `&leftOvers`. -/
inductive Thk where
  | flagT (long : String) (value : String)
  | cmdT (name : String)
deriving DecidableEq

def runThk (leftOvers : List String) : Thk → Event
  | Thk.flagT l v => Event.flagCall l v
  | Thk.cmdT n => Event.cmdCall n leftOvers

/-- The mutable locals of `parse` (subcommand.go:207-214) plus the event
trace.  `onCommandPending` models `onCommand != nil`. -/
structure St where
  visited : List Flag
  functions : List Thk
  current : Cmd
  currentFunc : Option Thk
  onCommandPending : Bool
  leftOvers : List String
  events : List Event
deriving DecidableEq

def initSt (p : Parser) : St :=
  { visited := [], functions := [], current := p.root, currentFunc := none,
    onCommandPending := true, leftOvers := [], events := [] }

/-- Flag resolution (subcommand.go:218-225): long index for a `--` prefix,
short index otherwise. -/
def resolveFlag (c : Cmd) (arg : String) : Option Flag :=
  if hasPrefix arg "--" then lookupLong c (arg.drop 2)
  else lookupShort c (arg.drop 1)

/-- The plain-token branch of the scan loop (subcommand.go:244-279):
mandatory check, flush of the pending flag calls, the root `onCommand`
call, then the command/help switch or a leftover append. -/
def procPlain (p : Parser) (st : St) (arg : String) : St × Option PError :=
  match checkVisited st.visited st.current with
  | some e => (st, some e)
  | none =>
    let st1 : St := { st with
      events := st.events ++ st.functions.map (runThk st.leftOvers),
      functions := [] }
    let st2 : St :=
      if st1.onCommandPending then
        { st1 with
          events := st1.events ++ [Event.cmdCall p.root.name st1.leftOvers],
          onCommandPending := false }
      else st1
    let cmd? : Option Cmd := (p.commands.find? (fun e => e.1 == arg)).map (fun e => e.2)
    let isHelp : Bool := arg == p.help.name
    if (cmd?.isSome || isHelp) && st2.current.name != p.help.name then
      let tgt : Cmd := if isHelp then p.help else cmd?.getD p.help
      ({ st2 with visited := [], current := tgt,
                  currentFunc := some (Thk.cmdT arg) }, none)
    else
      ({ st2 with leftOvers := st2.leftOvers ++ [arg] }, none)

/-- The scan loop of `parse` (subcommand.go:216-281). -/
def scan (p : Parser) (st : St) : List String → St × Option PError
  | [] => (st, none)
  | arg :: rest =>
    if hasPrefix arg "-" then
      match resolveFlag st.current arg with
      | none => (st, some (PError.unknownFlag arg st.current.name))
      | some opt =>
        match opt.type with
        | FlagType.Option =>
          match rest with
          | [] => (st, some (PError.missingValue arg))
          | v :: rest' =>
            scan p { st with functions := st.functions ++ [Thk.flagT opt.long v],
                             visited := st.visited ++ [opt] } rest'
        | FlagType.Switch =>
          scan p { st with functions := st.functions ++ [Thk.flagT opt.long ""],
                           visited := st.visited ++ [opt] } rest
    else
      match procPlain p st arg with
      | (st', none) => scan p st' rest
      | (st', some e) => (st', some e)

/-- Post-loop processing of `parse` (subcommand.go:282-288): append the
pending command thunk and run the last mandatory check. -/
def finish (st : St) : St × Option PError :=
  let st' : St :=
    match st.currentFunc with
    | some t => { st with functions := st.functions ++ [t] }
    | none => st
  (st', checkVisited st'.visited st'.current)

/-- `parse` (subcommand.go:207-289). -/
def parse (p : Parser) (args : List String) : St × Option PError :=
  match scan p (initSt p) args with
  | (st, none) => finish st
  | (st, some e) => (st, some e)

/-- `Parse` (subcommand.go:190-204): on success run the delayed functions
in order; the command thunk reads the final leftovers.  On error the
accumulated leftovers are returned alongside the error. -/
def Parse (p : Parser) (args : List String) : St × Option PError :=
  match parse p args with
  | (st, none) =>
    ({ st with events := st.events ++ st.functions.map (runThk st.leftOvers),
               functions := [] }, none)
  | (st, some e) => (st, some e)

/-- Modelled from the spec: the expected flag matches for a token list
containing only recognized flags of scope `c`, with values present and no
plain tokens ("every flag callback fires exactly once with the correct
consumed value (or empty for switches), in left-to-right token order").
Used as the specification side of claim C7. -/
def flagMatches (c : Cmd) : List String → Option (List (Flag × String))
  | [] => some []
  | arg :: rest =>
    if hasPrefix arg "-" then
      match resolveFlag c arg with
      | none => none
      | some opt =>
        match opt.type with
        | FlagType.Option =>
          match rest with
          | [] => none
          | v :: rest' => (flagMatches c rest').map (fun ms => (opt, v) :: ms)
        | FlagType.Switch => (flagMatches c rest).map (fun ms => (opt, "") :: ms)
    else none

end V1

namespace V2

/-- `Arity` (part_000:181-184). -/
structure Arity where
  count : Int
  description : String
deriving DecidableEq

/-- `Command` of part_000, with its arity (the `postFlagsFn` default is a
no-op and is not observable). -/
structure Cmd where
  name : String
  flagsLong : List (String × Flag)
  flagsShort : List (String × Flag)
  arity : Arity
deriving DecidableEq

structure Parser where
  root : Cmd
  commands : List (String × Cmd)
  help : Cmd
deriving DecidableEq

def Flags (c : Cmd) : List Flag := c.flagsLong.map (fun e => e.2)

def lookupLong (c : Cmd) (n : String) : Option Flag :=
  (c.flagsLong.find? (fun e => e.1 == n)).map (fun e => e.2)

def lookupShort (c : Cmd) (n : String) : Option Flag :=
  (c.flagsShort.find? (fun e => e.1 == n)).map (fun e => e.2)

/-- `SetArity` (part_000:189-192). -/
def SetArity (c : Cmd) (n : Int) (d : String) : Cmd :=
  { c with arity := { count := n, description := d } }

/-- `flagCallable` (part_000:331-334): the matched flag plus the value its
deferred function was built with by `flagFunction`. -/
structure FlagCallable where
  flag : Flag
  value : String
deriving DecidableEq

/-- `checkVisited` (part_000:370-386). -/
def checkVisited (visited : List FlagCallable) (c : Cmd) : Option PError :=
  match (Flags c).find?
      (fun f => f.mandatory && !(visited.any (fun v => v.flag.long == f.long))) with
  | some f => some (PError.missingMandatory f c.name)
  | none => none

/-- `callFlags` (part_000:309-323): mandatory check, then the deferred
flag functions in order (the default `postFlagsFn` is a no-op). -/
def callFlags (c : Cmd) (fcs : List FlagCallable) : List Event × Option PError :=
  match checkVisited fcs c with
  | some e => ([], some e)
  | none => (fcs.map (fun fc => Event.flagCall fc.flag.long fc.value), none)

/-- `exec` (part_000:294-306): arity check, then the command function with
the leftovers. -/
def exec (c : Cmd) (lo : List String) : List Event × Option PError :=
  if c.arity.count != -1 && c.arity.count != (lo.length : Int) then
    ([], some (PError.arityError c.name c.arity.count lo.length))
  else ([Event.cmdCall c.name lo], none)

/-- The recursive `parse` (part_000:227-291).  Arguments: active scope,
`flagsToCall`, `leftOvers`, remaining args.  `parseFlag`
(part_000:337-367) is inlined so the recursion is structural.  Note that
`flagsToCall` is not cleared after the plain-token `callFlags`, exactly
as in the source; on a command or help match the loop breaks, the
end-of-loop `callFlags` is skipped (`nextCommandCall` is non-nil), `exec`
runs with this level's leftovers and parsing recurses into the new scope
with the remaining tokens. -/
def parse (p : Parser) :
    Cmd → List FlagCallable → List String → List String →
    List Event × Option PError
  | cur, fcs, lo, [] =>
    match (if lo.isEmpty then callFlags cur fcs else ([], none)) with
    | (ev1, some e) => (ev1, some e)
    | (ev1, none) =>
      let r2 := exec cur lo
      (ev1 ++ r2.1, r2.2)
  | cur, fcs, lo, arg :: rest =>
    if hasPrefix arg "-" then
      match (if hasPrefix arg "--" then lookupLong cur (arg.drop 2)
             else lookupShort cur (arg.drop 1)) with
      | none => ([], some (PError.unknownFlag arg cur.name))
      | some opt =>
        match opt.type with
        | FlagType.Option =>
          match rest with
          | [] => ([], some (PError.missingValue arg))
          | v :: rest' => parse p cur (fcs ++ [{ flag := opt, value := v }]) lo rest'
        | FlagType.Switch => parse p cur (fcs ++ [{ flag := opt, value := "" }]) lo rest
    else
      match callFlags cur fcs with
      | (ev1, some e) => (ev1, some e)
      | (ev1, none) =>
        let cmd? : Option Cmd := (p.commands.find? (fun e => e.1 == arg)).map (fun e => e.2)
        let isHelp : Bool := arg == p.help.name
        if (cmd?.isSome || isHelp) && cur.name != p.help.name then
          let tgt : Cmd := if isHelp then p.help else cmd?.getD p.help
          match exec cur lo with
          | (ev2, some e) => (ev1 ++ ev2, some e)
          | (ev2, none) =>
            let r3 := parse p tgt [] [] rest
            (ev1 ++ ev2 ++ r3.1, r3.2)
        else
          let r := parse p cur fcs (lo ++ [arg]) rest
          (ev1 ++ r.1, r.2)

/-- `Parse` (part_000:218-224): the named `leftOvers` result is declared
but never assigned in the source, so the returned leftover list is always
empty. -/
def Parse (p : Parser) (args : List String) :
    List Event × List String × Option PError :=
  let r := parse p p.root [] [] args
  (r.1, [], r.2)

end V2

/-! Concrete parser configurations used by the scenario theorems, built as
literals mirroring what `NewParser` / `AddCommand` / `AddSwitch` /
`AddOption` produce. -/

/-- Global switch `--verbose` / `-v`. -/
def verboseFlag : Flag :=
  { long := "verbose", short := "v", description := "",
    type := FlagType.Switch, mandatory := false }

/-- Mandatory option `--target` / `-t` (after `Must(true)`). -/
def targetFlag : Flag :=
  { long := "target", short := "t", description := "",
    type := FlagType.Option, mandatory := true }

/-- Mandatory switch `--sw` / `-s` (after `Must(true)`). -/
def swFlag : Flag :=
  { long := "sw", short := "s", description := "",
    type := FlagType.Switch, mandatory := true }

/-- Parser "app" with global switch `--verbose`/`-v` and command `build`
with no flags (the spec's first scenario parser), subcommand.go engine. -/
def appP : V1.Parser :=
  { root := { name := "app",
              flagsLong := [("verbose", verboseFlag)],
              flagsShort := [("v", verboseFlag)] },
    commands := [("build", { name := "build", flagsLong := [], flagsShort := [] })],
    help := { name := "help", flagsLong := [], flagsShort := [] } }

/-- The command `deploy` with the mandatory option `--target`/`-t`. -/
def deployCmd : V1.Cmd :=
  { name := "deploy",
    flagsLong := [("target", targetFlag)],
    flagsShort := [("t", targetFlag)] }

/-- Parser "app" with command `deploy` carrying the mandatory option
`--target`/`-t` (the spec's mandatory-flag scenario), subcommand.go engine. -/
def deployP : V1.Parser :=
  { root := { name := "app", flagsLong := [], flagsShort := [] },
    commands := [("deploy", deployCmd)],
    help := { name := "help", flagsLong := [], flagsShort := [] } }

/-- Parser "app" whose root scope has the mandatory option `--target`/`-t`
and the switch `--verbose`/`-v`, subcommand.go engine. -/
def rootMandP : V1.Parser :=
  { root := { name := "app",
              flagsLong := [("target", targetFlag), ("verbose", verboseFlag)],
              flagsShort := [("t", targetFlag), ("v", verboseFlag)] },
    commands := [],
    help := { name := "help", flagsLong := [], flagsShort := [] } }

/-- Parser "app" whose root scope has the mandatory switch `--sw`/`-s`,
subcommand.go engine. -/
def rootSwP : V1.Parser :=
  { root := { name := "app",
              flagsLong := [("sw", swFlag)],
              flagsShort := [("s", swFlag)] },
    commands := [],
    help := { name := "help", flagsLong := [], flagsShort := [] } }

/-- Parser "app" with command `pair` of arity 2, part_000 engine (the root
created by `NewParser` has arity 0, commands and `help` default to arity
-1). -/
def pairP : V2.Parser :=
  { root := { name := "app", flagsLong := [], flagsShort := [],
              arity := { count := 0, description := "" } },
    commands := [("pair", { name := "pair", flagsLong := [], flagsShort := [],
                            arity := { count := 2, description := "a b" } })],
    help := { name := "help", flagsLong := [], flagsShort := [],
              arity := { count := -1, description := "arg1,arg2,..." } } }

/-- Plain parser "app" with no commands and no flags, part_000 engine. -/
def plainP2 : V2.Parser :=
  { root := { name := "app", flagsLong := [], flagsShort := [],
              arity := { count := 0, description := "" } },
    commands := [],
    help := { name := "help", flagsLong := [], flagsShort := [],
              arity := { count := -1, description := "arg1,arg2,..." } } }

/-! ### Derived notions used by the theorems -/

/-- All scopes of a parser: root, help and the registered commands. -/
def V1.scopesList (p : V1.Parser) : List V1.Cmd :=
  p.root :: p.help :: p.commands.map (fun e => e.2)

/-- Well-formed parser configuration: scope names are pairwise distinct
and each command is stored under its own name (this is what the Go
registration API produces when no name is registered twice). -/
def V1.WF (p : V1.Parser) : Prop :=
  (p.root.name :: p.help.name :: p.commands.map (fun e => e.1)).Nodup ∧
  ∀ e ∈ p.commands, e.2.name = e.1

/-- No scope of the parser carries a mandatory flag. -/
def V1.MandFree (p : V1.Parser) : Prop :=
  ∀ c ∈ V1.scopesList p, ∀ f ∈ V1.Flags c, f.mandatory = false

/-- The event is a command call carrying the given name. -/
def isCmdNamed (n : String) : Event → Bool
  | Event.cmdCall m _ => m == n
  | Event.flagCall _ _ => false

/-- A plain token that matches neither a registered command name nor the
help name. -/
def V1.nonmatching (p : V1.Parser) (t : String) : Bool :=
  (p.commands.find? (fun e => e.1 == t)).isNone && (t != p.help.name)

/-- A bare command node used by the claim C9 witness. -/
def pairCmd0 : V2.Cmd :=
  { name := "pair", flagsLong := [], flagsShort := [],
    arity := { count := 0, description := "" } }

/-- The state of the subcommand.go engine right after scanning `build`
with the scenario parser: the active scope is the child command `build`. -/
def stBuild : V1.St :=
  { visited := [], functions := [],
    current := { name := "build", flagsLong := [], flagsShort := [] },
    currentFunc := some (V1.Thk.cmdT "build"), onCommandPending := false,
    leftOvers := [], events := [Event.cmdCall "app" []] }

/-- The state of the subcommand.go engine after scanning the single plain
token `x` with the scenario parser. -/
def stAfterX : V1.St :=
  { visited := [], functions := [], current := appP.root, currentFunc := none,
    onCommandPending := false, leftOvers := ["x"],
    events := [Event.cmdCall "app" []] }

/-- The loop-state invariants of the subcommand.go engine: the active
scope is one of the parser's scopes; pending deferred calls are flag
calls only; every command call in the trace so far is the root's
`onCommand` call; every visited flag has its deferred call still pending
or already in the trace; every command call in the trace was preceded by
flag calls covering the mandatory flags of its scope; the pending command
thunk names the active scope; and the root `onCommand` call can only be
pending while the root scope is active. -/
structure Inv (p : V1.Parser) (st : V1.St) : Prop where
  curMem : st.current ∈ V1.scopesList p
  funcsFlag : ∀ t ∈ st.functions, ∃ l v, t = V1.Thk.flagT l v
  evRoot : ∀ n lo, Event.cmdCall n lo ∈ st.events → n = p.root.name
  visEv : ∀ f ∈ st.visited,
    (∃ v, V1.Thk.flagT f.long v ∈ st.functions) ∨
    (∃ v, Event.flagCall f.long v ∈ st.events)
  evGood : ∀ n lo, Event.cmdCall n lo ∈ st.events →
    ∀ c ∈ V1.scopesList p, c.name = n →
    ∀ f ∈ V1.Flags c, f.mandatory = true →
    ∃ v, Event.flagCall f.long v ∈ st.events
  cfGood : ∀ n, st.currentFunc = some (V1.Thk.cmdT n) →
    ∀ c ∈ V1.scopesList p, c.name = n → c = st.current
  onRoot : st.onCommandPending = true → st.current = p.root

/-! ### Generic helper lemmas -/

theorem find?_congr {α : Type} {q r : α → Bool} :
    ∀ (l : List α), (∀ x ∈ l, q x = r x) → l.find? q = l.find? r
  | [], _ => rfl
  | a :: t, h => by
    have ha : q a = r a := h a (by simp)
    by_cases hq : q a = true
    · rw [List.find?_cons_of_pos _ hq, List.find?_cons_of_pos _ (ha ▸ hq)]
    · rw [List.find?_cons_of_neg _ hq, List.find?_cons_of_neg _ (ha ▸ hq),
        find?_congr t (fun x hx => h x (List.mem_cons_of_mem a hx))]

/-- `checkVisited` succeeds exactly when every mandatory flag of the scope
has a visited flag with the same long name. -/
theorem checkVisited_eq_none_iff (visited : List Flag) (c : V1.Cmd) :
    V1.checkVisited visited c = none ↔
      ∀ f ∈ V1.Flags c, f.mandatory = true → ∃ v ∈ visited, v.long = f.long := by
  unfold V1.checkVisited
  cases hfind : (V1.Flags c).find?
      (fun f => f.mandatory && !(visited.any (fun v => v.long == f.long))) with
  | none =>
    simp only [true_iff]
    rw [List.find?_eq_none] at hfind
    intro f hf hm
    have := hfind f hf
    simp only [hm, Bool.true_and, Bool.not_eq_true', Bool.not_eq_false] at this
    rcases List.any_eq_true.mp this with ⟨v, hv, hveq⟩
    exact ⟨v, hv, by simpa using hveq⟩
  | some g =>
    constructor
    · intro h
      exact absurd h (by simp)
    · intro h
      exfalso
      have hgp := List.find?_some hfind
      have hgm := List.mem_of_find?_eq_some hfind
      simp only [Bool.and_eq_true, Bool.not_eq_true'] at hgp
      rcases h g hgm hgp.1 with ⟨v, hv, hveq⟩
      have hany : visited.any (fun v => v.long == g.long) = true :=
        List.any_eq_true.mpr ⟨v, hv, by simpa using hveq⟩
      rw [hany] at hgp
      exact absurd hgp.2 (by simp)

/-- A scope with no mandatory flag passes `checkVisited` with any visited
list. -/
theorem checkVisited_of_not_mandatory (visited : List Flag) (c : V1.Cmd)
    (h : ∀ f ∈ V1.Flags c, f.mandatory = false) :
    V1.checkVisited visited c = none := by
  rw [checkVisited_eq_none_iff]
  intro f hf hm
  rw [h f hf] at hm
  exact absurd hm (by simp)

/-! ### Claim theorems -/

/-- Claim C6: registering a flag whose long name, or whose short name,
already exists in the respective index of the scope fails with a
`duplicateFlag` construction error (the Go `panic`), producing no updated
registry; when both names are absent the registration succeeds, appending
the flag to the long index and, when the short name is non-empty, to the
short index, after which the flag is found by the corresponding lookups. -/
theorem claimC6 (c : V1.Cmd) (f : Flag) :
    ((V1.lookupLong c f.long).isSome = true →
      V1.addFlag c f = Except.error (PError.duplicateFlag f.long)) ∧
    (V1.lookupLong c f.long = none → (V1.lookupShort c f.short).isSome = true →
      V1.addFlag c f = Except.error (PError.duplicateFlag f.short)) ∧
    (V1.lookupLong c f.long = none → V1.lookupShort c f.short = none →
      V1.addFlag c f = Except.ok
        { c with flagsLong := c.flagsLong ++ [(f.long, f)],
                 flagsShort := if f.short == "" then c.flagsShort
                               else c.flagsShort ++ [(f.short, f)] } ∧
      ∀ c', V1.addFlag c f = Except.ok c' →
        V1.lookupLong c' f.long = some f ∧
        (f.short ≠ "" → V1.lookupShort c' f.short = some f)) := by
  refine ⟨?_, ?_, ?_⟩
  · intro h
    unfold V1.lookupLong at h
    unfold V1.addFlag
    rw [if_pos (by simpa using h)]
  · intro h1 h2
    unfold V1.lookupLong at h1
    unfold V1.lookupShort at h2
    simp only [Option.map_eq_none'] at h1
    unfold V1.addFlag
    rw [if_neg (by simp [h1]), if_pos (by simpa using h2)]
  · intro h1 h2
    unfold V1.lookupLong at h1
    unfold V1.lookupShort at h2
    simp only [Option.map_eq_none'] at h1 h2
    have hk : V1.addFlag c f = Except.ok
        { c with flagsLong := c.flagsLong ++ [(f.long, f)],
                 flagsShort := if f.short == "" then c.flagsShort
                               else c.flagsShort ++ [(f.short, f)] } := by
      unfold V1.addFlag
      rw [if_neg (by simp [h1]), if_neg (by simp [h2])]
    refine ⟨hk, ?_⟩
    intro c' hc'
    rw [hk] at hc'
    cases hc'
    constructor
    · unfold V1.lookupLong
      simp [List.find?_append, h1]
    · intro hs
      unfold V1.lookupShort
      simp only
      rw [if_neg (by simpa using hs)]
      simp [List.find?_append, h2]

/-- Claim C9: for a scope whose arity is set to a value other than the
unbounded sentinel -1, `exec` fails with an `arityError` and does not
invoke the terminal callback when the leftover count differs, and invokes
it when the count matches; with arity -1 it always invokes the callback.
The two closing conjuncts run the part_000 engine end to end on the
command `pair` of arity 2. -/
theorem claimC9 (c : V2.Cmd) (a : Int) (d : String) (lo : List String) :
    (a ≠ -1 → a ≠ (lo.length : Int) →
      V2.exec (V2.SetArity c a d) lo =
        ([], some (PError.arityError c.name a lo.length))) ∧
    (a = (lo.length : Int) →
      V2.exec (V2.SetArity c a d) lo = ([Event.cmdCall c.name lo], none)) ∧
    (a = -1 →
      V2.exec (V2.SetArity c a d) lo = ([Event.cmdCall c.name lo], none)) ∧
    V2.Parse pairP ["pair", "a"] =
      ([Event.cmdCall "app" []], [], some (PError.arityError "pair" 2 1)) ∧
    V2.Parse pairP ["pair", "a", "b"] =
      ([Event.cmdCall "app" [], Event.cmdCall "pair" ["a", "b"]], [], none) := by
  refine ⟨?_, ?_, ?_, by decide, by decide⟩
  · intro h1 h2
    unfold V2.exec V2.SetArity
    rw [if_pos (by simp [h1, h2])]
  · intro h
    unfold V2.exec V2.SetArity
    rw [if_neg (by simp [h])]
  · intro h
    unfold V2.exec V2.SetArity
    rw [if_neg (by simp [h])]

/-- Witness for claim C9 at arity 2 with one and with two leftovers. -/
theorem claimC9_witness :
    V2.exec (V2.SetArity pairCmd0 2 "a b") ["x"] =
      ([], some (PError.arityError "pair" 2 1)) ∧
    V2.exec (V2.SetArity pairCmd0 2 "a b") ["x", "y"] =
      ([Event.cmdCall "pair" ["x", "y"]], none) :=
  ⟨(claimC9 pairCmd0 2 "a b" ["x"]).1 (by decide) (by decide),
   (claimC9 pairCmd0 2 "a b" ["x", "y"]).2.1 (by decide)⟩

/-- Witness for claim C6: adding a second flag with long name `sw` to a
scope already holding one fails; adding `verbose` succeeds and lands in
both indices. -/
theorem claimC6_witness :
    V1.addFlag rootSwP.root swFlag = Except.error (PError.duplicateFlag "sw") ∧
    V1.addFlag rootSwP.root verboseFlag = Except.ok
      { rootSwP.root with
        flagsLong := rootSwP.root.flagsLong ++ [("verbose", verboseFlag)],
        flagsShort := rootSwP.root.flagsShort ++ [("v", verboseFlag)] } :=
  ⟨(claimC6 rootSwP.root swFlag).1 (by decide),
   ((claimC6 rootSwP.root verboseFlag).2.2 (by decide) (by decide)).1⟩

/-- Claim C3 (amended): processing a plain token equal to the help name
switches the active scope to the help node whenever the active scope is
not itself the help scope -- whether root or a child command -- and only
when the active scope is already the help scope is the token instead
appended to the leftovers. -/
theorem claimC3_amended (p : V1.Parser) (st : V1.St)
    (h : V1.checkVisited st.visited st.current = none) :
    (st.current.name ≠ p.help.name →
      (V1.procPlain p st p.help.name).1.current = p.help ∧
      (V1.procPlain p st p.help.name).1.currentFunc = some (V1.Thk.cmdT p.help.name) ∧
      (V1.procPlain p st p.help.name).2 = none) ∧
    (st.current.name = p.help.name →
      (V1.procPlain p st p.help.name).1.current = st.current ∧
      (V1.procPlain p st p.help.name).1.leftOvers = st.leftOvers ++ [p.help.name] ∧
      (V1.procPlain p st p.help.name).2 = none) := by
  constructor
  · intro hne
    by_cases hoc : st.onCommandPending <;>
      simp [V1.procPlain, h, hoc, hne]
  · intro heq
    by_cases hoc : st.onCommandPending <;>
      simp [V1.procPlain, h, hoc, heq]

/-- Witness for claim C3 (amended): from the child scope `build`, the
token `help` does switch into the help scope. -/
theorem claimC3_witness :
    (V1.procPlain appP stBuild "help").1.current = appP.help ∧
    (V1.procPlain appP stBuild "help").1.currentFunc = some (V1.Thk.cmdT "help") ∧
    (V1.procPlain appP stBuild "help").2 = none :=
  (claimC3_amended appP stBuild (by decide)).1 (by decide)

/-- Counterexample to claim C3 as stated: with the scenario parser, after
`build` the active scope is the non-root command `build`, yet the next
token `help` switches the parse into the help scope, whose callback then
fires. -/
theorem claimC3_counterexample :
    (V1.scan appP (V1.initSt appP) ["build"]).1.current.name = "build" ∧
    (V1.scan appP (V1.initSt appP) ["build"]).2 = none ∧
    "build" ≠ appP.root.name ∧
    "build" ≠ appP.help.name ∧
    (V1.scan appP (V1.initSt appP) ["build", "help"]).1.current = appP.help ∧
    (V1.scan appP (V1.initSt appP) ["build", "help"]).2 = none ∧
    Event.cmdCall "help" [] ∈ (V1.Parse appP ["build", "help"]).1.events := by
  refine ⟨by decide, by decide, by decide, by decide, by decide, by decide, by decide⟩

/-- One-step unfolding of the scan loop on a non-empty token list. -/
theorem scan_cons (p : V1.Parser) (st : V1.St) (arg : String) (rest : List String) :
    V1.scan p st (arg :: rest) =
      if hasPrefix arg "-" = true then
        match V1.resolveFlag st.current arg with
        | none => (st, some (PError.unknownFlag arg st.current.name))
        | some opt =>
          match opt.type with
          | FlagType.Option =>
            match rest with
            | [] => (st, some (PError.missingValue arg))
            | v :: rest' =>
              V1.scan p { st with functions := st.functions ++ [V1.Thk.flagT opt.long v],
                                  visited := st.visited ++ [opt] } rest'
          | FlagType.Switch =>
            V1.scan p { st with functions := st.functions ++ [V1.Thk.flagT opt.long ""],
                                visited := st.visited ++ [opt] } rest
      else
        match V1.procPlain p st arg with
        | (st', none) => V1.scan p st' rest
        | (st', some e) => (st', some e) := by
  simp only [V1.scan]

/-- An unresolvable flag-shaped token stops the scan at once with
`unknownFlag`, leaving the whole state untouched. -/
theorem scan_unknown_step (p : V1.Parser) (st : V1.St) (arg : String) (rest : List String)
    (hd : hasPrefix arg "-" = true) (hr : V1.resolveFlag st.current arg = none) :
    V1.scan p st (arg :: rest) = (st, some (PError.unknownFlag arg st.current.name)) := by
  rw [scan_cons, if_pos hd, hr]

/-- A value-taking flag as the last token stops the scan with
`missingValue`, leaving the whole state untouched. -/
theorem scan_missing_value_step (p : V1.Parser) (st : V1.St) (arg : String) (opt : Flag)
    (hd : hasPrefix arg "-" = true) (hr : V1.resolveFlag st.current arg = some opt)
    (ht : opt.type = FlagType.Option) :
    V1.scan p st [arg] = (st, some (PError.missingValue arg)) := by
  rw [scan_cons, if_pos hd, hr]
  dsimp only
  rw [ht]

/-- A value-taking flag with a following token consumes that token as its
value: the scan continues after both with the deferred call recorded. -/
theorem scan_value_step (p : V1.Parser) (st : V1.St) (arg v : String) (rest : List String)
    (opt : Flag) (hd : hasPrefix arg "-" = true)
    (hr : V1.resolveFlag st.current arg = some opt) (ht : opt.type = FlagType.Option) :
    V1.scan p st (arg :: v :: rest) =
      V1.scan p { st with functions := st.functions ++ [V1.Thk.flagT opt.long v],
                          visited := st.visited ++ [opt] } rest := by
  rw [scan_cons, if_pos hd, hr]
  dsimp only
  rw [ht]

/-- A switch defers a call with the empty value and the scan continues. -/
theorem scan_switch_step (p : V1.Parser) (st : V1.St) (arg : String) (rest : List String)
    (opt : Flag) (hd : hasPrefix arg "-" = true)
    (hr : V1.resolveFlag st.current arg = some opt) (ht : opt.type = FlagType.Switch) :
    V1.scan p st (arg :: rest) =
      V1.scan p { st with functions := st.functions ++ [V1.Thk.flagT opt.long ""],
                          visited := st.visited ++ [opt] } rest := by
  rw [scan_cons, if_pos hd, hr]
  dsimp only
  rw [ht]

/-- A plain token is handled by `procPlain`; on success the scan continues
from the updated state. -/
theorem scan_plain_ok_step (p : V1.Parser) (st st1 : V1.St) (arg : String)
    (rest : List String) (hd : hasPrefix arg "-" = false)
    (hp : V1.procPlain p st arg = (st1, none)) :
    V1.scan p st (arg :: rest) = V1.scan p st1 rest := by
  rw [scan_cons, if_neg (by simp [hd]), hp]

/-- A plain token is handled by `procPlain`; on error the scan stops with
the state `procPlain` returned. -/
theorem scan_plain_err_step (p : V1.Parser) (st st1 : V1.St) (arg : String)
    (rest : List String) (e : PError) (hd : hasPrefix arg "-" = false)
    (hp : V1.procPlain p st arg = (st1, some e)) :
    V1.scan p st (arg :: rest) = (st1, some e) := by
  rw [scan_cons, if_neg (by simp [hd]), hp]

/-- A scan that completes without error continues over any later tokens:
the loop state after the clean prefix is the state the remaining tokens
are scanned from. -/
theorem scan_append_ok (p : V1.Parser) (b : List String) :
    ∀ (a : List String) (st st' : V1.St),
      V1.scan p st a = (st', none) → V1.scan p st (a ++ b) = V1.scan p st' b
  | [], st, st', h => by
    simp only [V1.scan, Prod.mk.injEq] at h
    rw [List.nil_append, h.1]
  | [arg], st, st', h => by
    rw [List.cons_append, List.nil_append]
    by_cases hd : hasPrefix arg "-"
    · cases hr : V1.resolveFlag st.current arg with
      | none =>
        rw [scan_unknown_step p st arg [] hd hr] at h
        exact absurd h (by simp)
      | some opt =>
        cases ht : opt.type with
        | Option =>
          rw [scan_missing_value_step p st arg opt hd hr ht] at h
          exact absurd h (by simp)
        | Switch =>
          rw [scan_switch_step p st arg [] opt hd hr ht] at h
          rw [scan_switch_step p st arg b opt hd hr ht]
          simp only [V1.scan, Prod.mk.injEq] at h
          rw [h.1]
    · have hd' : hasPrefix arg "-" = false := by simpa using hd
      cases hp : V1.procPlain p st arg with
      | mk st1 e =>
        cases e with
        | none =>
          rw [scan_plain_ok_step p st st1 arg [] hd' hp] at h
          rw [scan_plain_ok_step p st st1 arg b hd' hp]
          simp only [V1.scan, Prod.mk.injEq] at h
          rw [h.1]
        | some err =>
          rw [scan_plain_err_step p st st1 arg [] err hd' hp] at h
          exact absurd h (by simp)
  | arg :: v :: rest', st, st', h => by
    rw [List.cons_append]
    by_cases hd : hasPrefix arg "-"
    · cases hr : V1.resolveFlag st.current arg with
      | none =>
        rw [scan_unknown_step p st arg (v :: rest') hd hr] at h
        exact absurd h (by simp)
      | some opt =>
        cases ht : opt.type with
        | Option =>
          rw [scan_value_step p st arg v rest' opt hd hr ht] at h
          rw [List.cons_append, scan_value_step p st arg v (rest' ++ b) opt hd hr ht]
          exact scan_append_ok p b rest' _ st' h
        | Switch =>
          rw [scan_switch_step p st arg (v :: rest') opt hd hr ht] at h
          rw [scan_switch_step p st arg ((v :: rest') ++ b) opt hd hr ht]
          exact scan_append_ok p b (v :: rest') _ st' h
    · have hd' : hasPrefix arg "-" = false := by simpa using hd
      cases hp : V1.procPlain p st arg with
      | mk st1 e =>
        cases e with
        | none =>
          rw [scan_plain_ok_step p st st1 arg (v :: rest') hd' hp] at h
          rw [scan_plain_ok_step p st st1 arg ((v :: rest') ++ b) hd' hp]
          exact scan_append_ok p b (v :: rest') st1 st' h
        | some err =>
          rw [scan_plain_err_step p st st1 arg (v :: rest') err hd' hp] at h
          exact absurd h (by simp)

/-- Claim C5: a flag-shaped token that does not resolve in the active
scope's registry aborts the scan immediately with `unknownFlag` naming
the token and the active scope, leaving state, pending deferred calls and
trace untouched, so no pending flag callback of the scope and no terminal
callback runs at or after the failure; end to end, a parse whose scanned
prefix was clean stops with exactly the events and leftovers of that
prefix.  Scenario: `["--unknown"]` yields `unknownFlag` with empty
leftovers and an empty trace. -/
theorem claimC5 :
    (∀ (p : V1.Parser) (st : V1.St) (arg : String) (rest : List String),
      hasPrefix arg "-" = true → V1.resolveFlag st.current arg = none →
      V1.scan p st (arg :: rest) = (st, some (PError.unknownFlag arg st.current.name))) ∧
    (∀ (p : V1.Parser) (pre : List String) (tok : String) (rest : List String) (st' : V1.St),
      V1.scan p (V1.initSt p) pre = (st', none) →
      hasPrefix tok "-" = true → V1.resolveFlag st'.current tok = none →
      V1.Parse p (pre ++ tok :: rest) = (st', some (PError.unknownFlag tok st'.current.name))) ∧
    V1.Parse appP ["--unknown"] =
      (V1.initSt appP, some (PError.unknownFlag "--unknown" "app")) ∧
    (V1.Parse appP ["--unknown"]).1.events = [] ∧
    (V1.Parse appP ["--unknown"]).1.leftOvers = [] := by
  refine ⟨?_, ?_, by decide, by decide, by decide⟩
  · intro p st arg rest hd hr
    exact scan_unknown_step p st arg rest hd hr
  · intro p pre tok rest st' hpre hd hr
    have hs : V1.scan p (V1.initSt p) (pre ++ tok :: rest) =
        (st', some (PError.unknownFlag tok st'.current.name)) := by
      rw [scan_append_ok p (tok :: rest) pre _ st' hpre]
      exact scan_unknown_step p st' tok rest hd hr
    simp only [V1.Parse, V1.parse, hs]

/-- Witness for claim C5: after the clean prefix `["x"]`, the unresolvable
token `--unknown` aborts the parse with the prefix state intact. -/
theorem claimC5_witness :
    V1.Parse appP ["x", "--unknown"] =
      (stAfterX, some (PError.unknownFlag "--unknown" "app")) :=
  claimC5.2.1 appP ["x"] "--unknown" [] stAfterX (by decide) (by decide) (by decide)

/-- Claim C8: a token resolving to a value-taking flag consumes the next
token as its value and the scan continues past both; when no next token
exists the parse fails with `missingValue`, also end to end after any
clean scanned prefix. -/
theorem claimC8 :
    (∀ (p : V1.Parser) (st : V1.St) (arg : String) (opt : Flag),
      hasPrefix arg "-" = true → V1.resolveFlag st.current arg = some opt →
      opt.type = FlagType.Option →
      V1.scan p st [arg] = (st, some (PError.missingValue arg))) ∧
    (∀ (p : V1.Parser) (st : V1.St) (arg v : String) (rest : List String) (opt : Flag),
      hasPrefix arg "-" = true → V1.resolveFlag st.current arg = some opt →
      opt.type = FlagType.Option →
      V1.scan p st (arg :: v :: rest) =
        V1.scan p { st with functions := st.functions ++ [V1.Thk.flagT opt.long v],
                            visited := st.visited ++ [opt] } rest) ∧
    (∀ (p : V1.Parser) (pre : List String) (arg : String) (st' : V1.St) (opt : Flag),
      V1.scan p (V1.initSt p) pre = (st', none) →
      hasPrefix arg "-" = true → V1.resolveFlag st'.current arg = some opt →
      opt.type = FlagType.Option →
      V1.Parse p (pre ++ [arg]) = (st', some (PError.missingValue arg))) := by
  refine ⟨?_, ?_, ?_⟩
  · intro p st arg opt hd hr ht
    exact scan_missing_value_step p st arg opt hd hr ht
  · intro p st arg v rest opt hd hr ht
    exact scan_value_step p st arg v rest opt hd hr ht
  · intro p pre arg st' opt hpre hd hr ht
    have hs : V1.scan p (V1.initSt p) (pre ++ [arg]) =
        (st', some (PError.missingValue arg)) := by
      rw [scan_append_ok p [arg] pre _ st' hpre]
      exact scan_missing_value_step p st' arg opt hd hr ht
    simp only [V1.Parse, V1.parse, hs]

/-- Witness for claim C8: `--target` at the end of the input fails with
`missingValue`; with a following `prod` the value is consumed and the
scan continues past both tokens. -/
theorem claimC8_witness :
    V1.Parse rootMandP ["--target"] =
      (V1.initSt rootMandP, some (PError.missingValue "--target")) ∧
    V1.scan rootMandP (V1.initSt rootMandP) ["--target", "prod"] =
      V1.scan rootMandP
        { V1.initSt rootMandP with
          functions := [V1.Thk.flagT "target" "prod"],
          visited := [targetFlag] } [] :=
  ⟨claimC8.2.2 rootMandP [] "--target" (V1.initSt rootMandP) targetFlag
      (by decide) (by decide) (by decide) (by decide),
   claimC8.2.1 rootMandP (V1.initSt rootMandP) "--target" "prod" [] targetFlag
      (by decide) (by decide) (by decide)⟩

/-- The post-loop processing in one equation: the pending command thunk
(if any) is appended and the final mandatory check result is returned. -/
theorem finish_eq (st : V1.St) :
    V1.finish st =
      ({ st with functions := st.functions ++
          (match st.currentFunc with | some t => [t] | none => []) },
       V1.checkVisited st.visited st.current) := by
  unfold V1.finish
  cases hc : st.currentFunc <;> simp [hc] <;> rw [← hc]

/-- `parse` after a clean scan is the post-loop processing. -/
theorem parse_eq_scan_ok (p : V1.Parser) (args : List String) (st : V1.St)
    (h : V1.scan p (V1.initSt p) args = (st, none)) :
    V1.parse p args = V1.finish st := by
  unfold V1.parse
  rw [h]

/-- `parse` propagates a scan error with the state at the error. -/
theorem parse_eq_scan_err (p : V1.Parser) (args : List String) (st : V1.St) (e : PError)
    (h : V1.scan p (V1.initSt p) args = (st, some e)) :
    V1.parse p args = (st, some e) := by
  unfold V1.parse
  rw [h]

/-- `Parse` after a clean parse runs the delayed functions with the final
leftovers. -/
theorem Parse_eq_ok (p : V1.Parser) (args : List String) (st : V1.St)
    (h : V1.parse p args = (st, none)) :
    V1.Parse p args =
      ({ st with events := st.events ++ st.functions.map (V1.runThk st.leftOvers),
                 functions := [] }, none) := by
  unfold V1.Parse
  rw [h]

/-- `Parse` propagates a parse error with the accumulated leftovers. -/
theorem Parse_eq_err (p : V1.Parser) (args : List String) (st : V1.St) (e : PError)
    (h : V1.parse p args = (st, some e)) :
    V1.Parse p args = (st, some e) := by
  unfold V1.Parse
  rw [h]

/-- When the mandatory check fails, `procPlain` stops with the state
untouched. -/
theorem procPlain_err (p : V1.Parser) (st : V1.St) (arg : String) (e : PError)
    (hcv : V1.checkVisited st.visited st.current = some e) :
    V1.procPlain p st arg = (st, some e) := by
  unfold V1.procPlain
  rw [hcv]

/-- When the mandatory check passes, `procPlain` flushes the pending flag
calls, fires the root `onCommand` call if still pending, and then either
switches scope (command or help token outside the help scope) or appends
the token to the leftovers. -/
theorem procPlain_eq (p : V1.Parser) (st : V1.St) (arg : String)
    (hcv : V1.checkVisited st.visited st.current = none) :
    V1.procPlain p st arg =
      (let ev2 := st.events ++ st.functions.map (V1.runThk st.leftOvers) ++
        (if st.onCommandPending then [Event.cmdCall p.root.name st.leftOvers] else []);
       if (((p.commands.find? (fun e => e.1 == arg)).map (fun e => e.2)).isSome
            || arg == p.help.name) && st.current.name != p.help.name then
         ({ visited := [], functions := [],
            current := if arg == p.help.name then p.help
                       else ((p.commands.find? (fun e => e.1 == arg)).map (fun e => e.2)).getD p.help,
            currentFunc := some (V1.Thk.cmdT arg), onCommandPending := false,
            leftOvers := st.leftOvers, events := ev2 }, none)
       else
         ({ st with functions := [], onCommandPending := false,
                    leftOvers := st.leftOvers ++ [arg], events := ev2 }, none)) := by
  unfold V1.procPlain
  rw [hcv]
  by_cases hoc : st.onCommandPending <;>
    by_cases hsw : ((((p.commands.find? (fun e => e.1 == arg)).map (fun e => e.2)).isSome
        || arg == p.help.name) && st.current.name != p.help.name) = true <;>
    simp only [hoc, hsw, if_true, if_false, Bool.false_eq_true, List.append_nil]

/-- `procPlain` either keeps the leftovers or appends exactly the token. -/
theorem procPlain_leftOvers (p : V1.Parser) (st : V1.St) (arg : String) :
    (V1.procPlain p st arg).1.leftOvers = st.leftOvers ∨
    (V1.procPlain p st arg).1.leftOvers = st.leftOvers ++ [arg] := by
  cases hcv : V1.checkVisited st.visited st.current with
  | some e => rw [procPlain_err p st arg e hcv]; exact Or.inl rfl
  | none =>
    rw [procPlain_eq p st arg hcv]
    dsimp only
    split
    · exact Or.inl rfl
    · exact Or.inr rfl

/-- When the mandatory check passes, `procPlain` succeeds; the new scope
stays among the parser's scopes and the leftovers grow by the token
exactly when it is not consumed as a scope switch (in particular whenever
it matches neither a command nor the help name). -/
theorem procPlain_ok (p : V1.Parser) (st : V1.St) (arg : String)
    (hcv : V1.checkVisited st.visited st.current = none)
    (hcur : st.current ∈ V1.scopesList p) :
    ∃ st1, V1.procPlain p st arg = (st1, none) ∧
      st1.current ∈ V1.scopesList p ∧
      (st1.leftOvers = st.leftOvers ∧ V1.nonmatching p arg = false ∨
       st1.leftOvers = st.leftOvers ++ [arg]) := by
  rw [procPlain_eq p st arg hcv]
  dsimp only
  split
  · rename_i hsw
    refine ⟨_, rfl, ?_, Or.inl ⟨rfl, ?_⟩⟩
    · dsimp only
      split
      · exact List.mem_cons_of_mem _ (List.mem_cons_self _ _)
      · rename_i hih
        rcases hs : (p.commands.find? (fun e => e.1 == arg)) with _ | e0
        · exfalso
          simp only [Bool.and_eq_true, Bool.or_eq_true] at hsw
          rcases hsw.1 with hx | hx
          · rw [hs] at hx; simp at hx
          · exact hih hx
        · have hm := List.mem_of_find?_eq_some hs
          simp only [hs, Option.map_some', Option.getD_some]
          exact List.mem_cons_of_mem _ (List.mem_cons_of_mem _
            (List.mem_map.mpr ⟨e0, hm, rfl⟩))
    · simp only [Bool.and_eq_true, Bool.or_eq_true] at hsw
      unfold V1.nonmatching
      rcases hsw.1 with hx | hx
      · rcases ho : p.commands.find? (fun e => e.1 == arg) with _ | e0
        · rw [ho] at hx
          simp at hx
        · rw [ho]
          simp
      · have hb : (arg != p.help.name) = false := by
          simp only [bne]
          rw [hx]
          rfl
        rw [hb, Bool.and_false]
  · exact ⟨_, rfl, by simpa using hcur, Or.inr rfl⟩

/-- The leftovers accumulated by the scan form a sublist of the scanned
tokens, appended to whatever was there before. -/
theorem scan_leftOvers_sublist (p : V1.Parser) :
    ∀ (a : List String) (st : V1.St),
      ∃ d, (V1.scan p st a).1.leftOvers = st.leftOvers ++ d ∧ List.Sublist d a
  | [], st => ⟨[], by simp [V1.scan], List.nil_sublist []⟩
  | [arg], st => by
    by_cases hd : hasPrefix arg "-"
    · cases hr : V1.resolveFlag st.current arg with
      | none =>
        rw [scan_unknown_step p st arg [] hd hr]
        exact ⟨[], by simp, List.nil_sublist _⟩
      | some opt =>
        cases ht : opt.type with
        | Option =>
          rw [scan_missing_value_step p st arg opt hd hr ht]
          exact ⟨[], by simp, List.nil_sublist _⟩
        | Switch =>
          rw [scan_switch_step p st arg [] opt hd hr ht]
          exact ⟨[], by simp [V1.scan], List.nil_sublist _⟩
    · have hd' : hasPrefix arg "-" = false := by simpa using hd
      cases hp : V1.procPlain p st arg with
      | mk st1 e =>
        have hlo := procPlain_leftOvers p st arg
        rw [hp] at hlo
        dsimp only at hlo
        cases e with
        | none =>
          rw [scan_plain_ok_step p st st1 arg [] hd' hp]
          rcases hlo with hlo | hlo
          · exact ⟨[], by simp [V1.scan, hlo], List.nil_sublist _⟩
          · exact ⟨[arg], by simp [V1.scan, hlo], by simp⟩
        | some err =>
          rw [scan_plain_err_step p st st1 arg [] err hd' hp]
          rcases hlo with hlo | hlo
          · exact ⟨[], by simp [hlo], List.nil_sublist _⟩
          · exact ⟨[arg], by simp [hlo], by simp⟩
  | arg :: v :: rest', st => by
    by_cases hd : hasPrefix arg "-"
    · cases hr : V1.resolveFlag st.current arg with
      | none =>
        rw [scan_unknown_step p st arg (v :: rest') hd hr]
        exact ⟨[], by simp, List.nil_sublist _⟩
      | some opt =>
        cases ht : opt.type with
        | Option =>
          rw [scan_value_step p st arg v rest' opt hd hr ht]
          rcases scan_leftOvers_sublist p rest' _ with ⟨d, hlo, hsub⟩
          exact ⟨d, by simpa using hlo,
            (hsub.trans (List.sublist_cons_self _ _)).trans (List.sublist_cons_self _ _)⟩
        | Switch =>
          rw [scan_switch_step p st arg (v :: rest') opt hd hr ht]
          rcases scan_leftOvers_sublist p (v :: rest') _ with ⟨d, hlo, hsub⟩
          exact ⟨d, by simpa using hlo, hsub.trans (List.sublist_cons_self _ _)⟩
    · have hd' : hasPrefix arg "-" = false := by simpa using hd
      cases hp : V1.procPlain p st arg with
      | mk st1 e =>
        have hlo1 := procPlain_leftOvers p st arg
        rw [hp] at hlo1
        dsimp only at hlo1
        cases e with
        | none =>
          rw [scan_plain_ok_step p st st1 arg (v :: rest') hd' hp]
          rcases scan_leftOvers_sublist p (v :: rest') st1 with ⟨d, hlo, hsub⟩
          rcases hlo1 with h1 | h1
          · exact ⟨d, by rw [hlo, h1], hsub.trans (List.sublist_cons_self _ _)⟩
          · refine ⟨arg :: d, ?_, hsub.cons₂ arg⟩
            rw [hlo, h1, List.append_assoc]
            rfl
        | some err =>
          rw [scan_plain_err_step p st st1 arg (v :: rest') err hd' hp]
          rcases hlo1 with h1 | h1
          · exact ⟨[], by simp [h1], List.nil_sublist _⟩
          · exact ⟨[arg],  by simp [h1], by simp⟩

/-- `Parse` returns exactly the leftovers the scan accumulated. -/
theorem Parse_leftOvers (p : V1.Parser) (args : List String) :
    (V1.Parse p args).1.leftOvers = (V1.scan p (V1.initSt p) args).1.leftOvers := by
  cases hs : V1.scan p (V1.initSt p) args with
  | mk st e =>
    cases e with
    | none =>
      have h1 := parse_eq_scan_ok p args st hs
      rw [finish_eq] at h1
      cases hcv : V1.checkVisited st.visited st.current with
      | none =>
        rw [hcv] at h1
        rw [Parse_eq_ok p args _ h1]
      | some err =>
        rw [hcv] at h1
        rw [Parse_eq_err p args _ err h1]
    | some err =>
      rw [Parse_eq_err p args st err (parse_eq_scan_err p args st err hs)]

/-- On a token list with no flag-shaped tokens, against a parser with no
mandatory flags anywhere, the scan never fails, stays within the parser's
scopes, and every token matching neither a command name nor the help name
is appended to the leftovers in order. -/
theorem scan_plainOnly (p : V1.Parser) (hmf : V1.MandFree p) :
    ∀ (a : List String) (st : V1.St), (∀ x ∈ a, hasPrefix x "-" = false) →
      st.current ∈ V1.scopesList p →
      (V1.scan p st a).2 = none ∧
      (V1.scan p st a).1.current ∈ V1.scopesList p ∧
      ∃ d, (V1.scan p st a).1.leftOvers = st.leftOvers ++ d ∧
        List.Sublist (a.filter (V1.nonmatching p)) d := by
  intro a
  induction a with
  | nil =>
    intro st _ hcur
    exact ⟨rfl, by simpa using hcur, [], by simp [V1.scan], by simp⟩
  | cons arg rest ih =>
    intro st hflag hcur
    have hd : hasPrefix arg "-" = false := hflag arg (List.mem_cons_self _ _)
    have hcv : V1.checkVisited st.visited st.current = none :=
      checkVisited_of_not_mandatory st.visited st.current (hmf st.current hcur)
    rcases procPlain_ok p st arg hcv hcur with ⟨st1, hp, hcur1, hlo1⟩
    rw [scan_plain_ok_step p st st1 arg rest hd hp]
    rcases ih st1 (fun x hx => hflag x (List.mem_cons_of_mem _ hx)) hcur1 with
      ⟨he, hc, d, hlo, hsub⟩
    refine ⟨he, hc, ?_⟩
    rcases hlo1 with ⟨h1, hnm⟩ | h1
    · refine ⟨d, by rw [hlo, h1], ?_⟩
      rw [List.filter_cons_of_neg (by simp [hnm])]
      exact hsub
    · refine ⟨arg :: d, ?_, ?_⟩
      · rw [hlo, h1, List.append_assoc]
        rfl
      · by_cases hnm : V1.nonmatching p arg = true
        · rw [List.filter_cons_of_pos (by simp [hnm])]
          exact hsub.cons₂ arg
        · rw [List.filter_cons_of_neg (by simpa using hnm)]
          exact hsub.trans (List.sublist_cons_self _ _)

/-- In a well-formed parser the root is the only scope with its name. -/
theorem wf_root_unique (p : V1.Parser) (hwf : V1.WF p) :
    ∀ c ∈ V1.scopesList p, c.name = p.root.name → c = p.root := by
  intro c hc hname
  rcases hwf with ⟨hnd, hkeys⟩
  rw [List.nodup_cons] at hnd
  rcases hc with _ | ⟨_, hc⟩
  · rfl
  · rcases hc with _ | ⟨_, hc⟩
    · exfalso
      exact hnd.1 (by rw [← hname]; exact List.mem_cons_self _ _)
    · exfalso
      rcases List.mem_map.mp hc with ⟨e, he, rfl⟩
      exact hnd.1 (List.mem_cons_of_mem _
        (List.mem_map.mpr ⟨e, he, by rw [← hkeys e he]; exact hname⟩))

/-- In a well-formed parser the help node is the only scope with its
name. -/
theorem wf_help_unique (p : V1.Parser) (hwf : V1.WF p) :
    ∀ c ∈ V1.scopesList p, c.name = p.help.name → c = p.help := by
  intro c hc hname
  rcases hwf with ⟨hnd, hkeys⟩
  rw [List.nodup_cons] at hnd
  have hnd2 := hnd.2
  rw [List.nodup_cons] at hnd2
  rcases hc with _ | ⟨_, hc⟩
  · exact absurd (by rw [← hname]; exact List.mem_cons_self _ _) hnd.1
  · rcases hc with _ | ⟨_, hc⟩
    · rfl
    · exfalso
      rcases List.mem_map.mp hc with ⟨e, he, rfl⟩
      exact hnd2.1 (List.mem_map.mpr ⟨e, he, by rw [← hkeys e he]; exact hname⟩)

/-- In a well-formed parser the command found under a key is the only
scope carrying that name (when the key is not the help name). -/
theorem wf_cmd_unique (p : V1.Parser) (hwf : V1.WF p) (arg : String) (e0 : String × V1.Cmd)
    (hfind : p.commands.find? (fun e => e.1 == arg) = some e0)
    (hne : arg ≠ p.help.name) :
    ∀ c ∈ V1.scopesList p, c.name = arg → c = e0.2 := by
  intro c hc hname
  have he0m := List.mem_of_find?_eq_some hfind
  have he0k : e0.1 = arg := by simpa using List.find?_some hfind
  rcases hwf with ⟨hnd, hkeys⟩
  rw [List.nodup_cons] at hnd
  have hnd2 := hnd.2
  rw [List.nodup_cons] at hnd2
  rcases hc with _ | ⟨_, hc⟩
  · exfalso
    apply hnd.1
    exact List.mem_cons_of_mem _
      (List.mem_map.mpr ⟨e0, he0m, by rw [he0k, hname]⟩)
  · rcases hc with _ | ⟨_, hc⟩
    · exact absurd hname.symm hne
    · rcases List.mem_map.mp hc with ⟨e, he, rfl⟩
      have : e = e0 :=
        List.inj_on_of_nodup_map hnd2.2 he he0m
          (by rw [← hkeys e he, hname, he0k])
      rw [this]

/-- The initial loop state satisfies the invariants. -/
theorem inv_init (p : V1.Parser) : Inv p (V1.initSt p) := by
  refine ⟨List.mem_cons_self _ _, ?_, ?_, ?_, ?_, ?_, ?_⟩ <;>
    simp [V1.initSt]

/-- Every mandatory flag of the active scope has a flag call among the
events once the pending deferred calls are flushed into the trace. -/
theorem mand_events (st : V1.St) (lo : List String)
    (hcv : V1.checkVisited st.visited st.current = none)
    (hvis : ∀ f ∈ st.visited,
      (∃ v, V1.Thk.flagT f.long v ∈ st.functions) ∨
      (∃ v, Event.flagCall f.long v ∈ st.events)) :
    ∀ f ∈ V1.Flags st.current, f.mandatory = true →
      ∃ v, Event.flagCall f.long v ∈
        st.events ++ st.functions.map (V1.runThk lo) := by
  intro f hf hm
  rcases (checkVisited_eq_none_iff _ _).mp hcv f hf hm with ⟨vv, hvv, hlong⟩
  rcases hvis vv hvv with ⟨v, hv⟩ | ⟨v, hv⟩
  · refine ⟨v, List.mem_append_right _ ?_⟩
    rw [← hlong]
    exact List.mem_map.mpr ⟨V1.Thk.flagT vv.long v, hv, rfl⟩
  · refine ⟨v, List.mem_append_left _ ?_⟩
    rw [← hlong]
    exact hv

/-- Every event obtained by flushing pending flag calls is a flag call. -/
theorem flush_flagCalls (st : V1.St) (lo : List String)
    (hfn : ∀ t ∈ st.functions, ∃ l v, t = V1.Thk.flagT l v) :
    ∀ ev ∈ st.functions.map (V1.runThk lo), ∃ l v, ev = Event.flagCall l v := by
  intro ev hev
  rcases List.mem_map.mp hev with ⟨t, ht, rfl⟩
  rcases hfn t ht with ⟨l, v, rfl⟩
  exact ⟨l, v, rfl⟩

/-- `procPlain` preserves the loop invariants. -/
theorem inv_procPlain (p : V1.Parser) (hwf : V1.WF p) (st : V1.St) (arg : String)
    (hinv : Inv p st) : Inv p (V1.procPlain p st arg).1 := by
  cases hcv : V1.checkVisited st.visited st.current with
  | some e =>
    rw [procPlain_err p st arg e hcv]
    exact hinv
  | none =>
    have hflush := flush_flagCalls st st.leftOvers hinv.funcsFlag
    have hev2Root : ∀ n lo, Event.cmdCall n lo ∈
        st.events ++ st.functions.map (V1.runThk st.leftOvers) ++
          (if st.onCommandPending then [Event.cmdCall p.root.name st.leftOvers] else []) →
        n = p.root.name := by
      intro n lo h
      rcases List.mem_append.mp h with h | h
      · rcases List.mem_append.mp h with h | h
        · exact hinv.evRoot n lo h
        · rcases hflush _ h with ⟨l, v, hev⟩
          simp at hev
      · by_cases hoc : st.onCommandPending
        · rw [if_pos hoc] at h
          rcases List.mem_singleton.mp h with hev
          injection hev
        · rw [if_neg hoc] at h
          simp at h
    have hvisEv2 : ∀ f ∈ st.visited, ∃ v, Event.flagCall f.long v ∈
        st.events ++ st.functions.map (V1.runThk st.leftOvers) ++
          (if st.onCommandPending then [Event.cmdCall p.root.name st.leftOvers] else []) := by
      intro f hf
      rcases hinv.visEv f hf with ⟨v, hv⟩ | ⟨v, hv⟩
      · exact ⟨v, List.mem_append_left _ (List.mem_append_right _
          (List.mem_map.mpr ⟨V1.Thk.flagT f.long v, hv, rfl⟩))⟩
      · exact ⟨v, List.mem_append_left _ (List.mem_append_left _ hv)⟩
    have hev2Good : ∀ n lo, Event.cmdCall n lo ∈
        st.events ++ st.functions.map (V1.runThk st.leftOvers) ++
          (if st.onCommandPending then [Event.cmdCall p.root.name st.leftOvers] else []) →
        ∀ c ∈ V1.scopesList p, c.name = n →
        ∀ f ∈ V1.Flags c, f.mandatory = true →
        ∃ v, Event.flagCall f.long v ∈
          st.events ++ st.functions.map (V1.runThk st.leftOvers) ++
            (if st.onCommandPending then [Event.cmdCall p.root.name st.leftOvers] else []) := by
      intro n lo h c hcm hcn f hf hm
      rcases List.mem_append.mp h with h | h
      · rcases List.mem_append.mp h with h | h
        · rcases hinv.evGood n lo h c hcm hcn f hf hm with ⟨v, hv⟩
          exact ⟨v, List.mem_append_left _ (List.mem_append_left _ hv)⟩
        · rcases hflush _ h with ⟨l, v, hev⟩
          simp at hev
      · by_cases hoc : st.onCommandPending
        · rw [if_pos hoc] at h
          have hev := List.mem_singleton.mp h
          have hn : n = p.root.name := by injection hev
          have hcroot : c = p.root := wf_root_unique p hwf c hcm (by rw [hcn, hn])
          have hcur : st.current = p.root := hinv.onRoot hoc
          have hf' : f ∈ V1.Flags st.current := by rw [hcur, ← hcroot]; exact hf
          rcases mand_events st st.leftOvers hcv hinv.visEv f hf' hm with ⟨v, hv⟩
          exact ⟨v, List.mem_append_left _ hv⟩
        · rw [if_neg hoc] at h
          simp at h
    rw [procPlain_eq p st arg hcv]
    dsimp only
    split
    · rename_i hsw
      refine ⟨?_, by simp, hev2Root, by simp, hev2Good, ?_, by simp⟩
      · dsimp only
        split
        · exact List.mem_cons_of_mem _ (List.mem_cons_self _ _)
        · rename_i hih
          simp only [Bool.and_eq_true, Bool.or_eq_true] at hsw
          rcases hsw.1 with hx | hx
          · rcases ho : p.commands.find? (fun e => e.1 == arg) with _ | e0
            · rw [ho] at hx
              simp at hx
            · rw [ho]
              simp only [Option.map_some', Option.getD_some]
              exact List.mem_cons_of_mem _ (List.mem_cons_of_mem _
                (List.mem_map.mpr ⟨e0, List.mem_of_find?_eq_some ho, rfl⟩))
          · exact absurd hx hih
      · intro n hcf c hcm hcn
        dsimp only at hcf
        have harg : arg = n := by
          have := Option.some.inj hcf
          injection this
        by_cases hbeq : (arg == p.help.name) = true
        · have harg2 : arg = p.help.name := by simpa using hbeq
          rw [if_pos hbeq]
          exact wf_help_unique p hwf c hcm (by rw [hcn, ← harg, harg2])
        · have hne : arg ≠ p.help.name := by simpa using hbeq
          simp only [Bool.and_eq_true, Bool.or_eq_true] at hsw
          rcases hsw.1 with hx | hx
          · rcases ho : p.commands.find? (fun e => e.1 == arg) with _ | e0
            · rw [ho] at hx
              simp at hx
            · rw [if_neg hbeq, ho]
              simp only [Option.map_some', Option.getD_some]
              exact wf_cmd_unique p hwf arg e0 ho hne c hcm (by rw [hcn, ← harg])
          · exact absurd hx hbeq
    · refine ⟨hinv.curMem, by simp, hev2Root, ?_, hev2Good, ?_, by simp⟩
      · intro f hf
        exact Or.inr (hvisEv2 f hf)
      · intro n hcf c hcm hcn
        dsimp only at hcf
        exact hinv.cfGood n hcf c hcm hcn

/-- Deferring one more flag call preserves the loop invariants. -/
theorem inv_flag_step (p : V1.Parser) (st : V1.St) (opt : Flag) (v : String)
    (h : Inv p st) :
    Inv p { st with functions := st.functions ++ [V1.Thk.flagT opt.long v],
                    visited := st.visited ++ [opt] } := by
  refine ⟨h.curMem, ?_, h.evRoot, ?_, h.evGood, h.cfGood, h.onRoot⟩
  · intro t ht
    rcases List.mem_append.mp ht with ht | ht
    · exact h.funcsFlag t ht
    · exact ⟨opt.long, v, List.mem_singleton.mp ht⟩
  · intro f hf
    rcases List.mem_append.mp hf with hf | hf
    · rcases h.visEv f hf with ⟨w, hw⟩ | hw
      · exact Or.inl ⟨w, List.mem_append_left _ hw⟩
      · exact Or.inr hw
    · rw [List.mem_singleton.mp hf]
      exact Or.inl ⟨v, List.mem_append_right _ (List.mem_singleton.mpr rfl)⟩

/-- The scan preserves the loop invariants, also when it stops early at
an error. -/
theorem scan_inv (p : V1.Parser) (hwf : V1.WF p) :
    ∀ (a : List String) (st : V1.St), Inv p st → Inv p (V1.scan p st a).1
  | [], st, h => by
    simpa [V1.scan] using h
  | [arg], st, h => by
    by_cases hd : hasPrefix arg "-"
    · cases hr : V1.resolveFlag st.current arg with
      | none =>
        rw [scan_unknown_step p st arg [] hd hr]
        exact h
      | some opt =>
        cases ht : opt.type with
        | Option =>
          rw [scan_missing_value_step p st arg opt hd hr ht]
          exact h
        | Switch =>
          rw [scan_switch_step p st arg [] opt hd hr ht]
          exact scan_inv p hwf [] _ (inv_flag_step p st opt "" h)
    · have hd' : hasPrefix arg "-" = false := by simpa using hd
      have h1 := inv_procPlain p hwf st arg h
      cases hp : V1.procPlain p st arg with
      | mk st1 e =>
        rw [hp] at h1
        dsimp only at h1
        cases e with
        | none =>
          rw [scan_plain_ok_step p st st1 arg [] hd' hp]
          exact scan_inv p hwf [] st1 h1
        | some err =>
          rw [scan_plain_err_step p st st1 arg [] err hd' hp]
          exact h1
  | arg :: w :: rest', st, h => by
    by_cases hd : hasPrefix arg "-"
    · cases hr : V1.resolveFlag st.current arg with
      | none =>
        rw [scan_unknown_step p st arg (w :: rest') hd hr]
        exact h
      | some opt =>
        cases ht : opt.type with
        | Option =>
          rw [scan_value_step p st arg w rest' opt hd hr ht]
          exact scan_inv p hwf rest' _ (inv_flag_step p st opt w h)
        | Switch =>
          rw [scan_switch_step p st arg (w :: rest') opt hd hr ht]
          exact scan_inv p hwf (w :: rest') _ (inv_flag_step p st opt "" h)
    · have hd' : hasPrefix arg "-" = false := by simpa using hd
      have h1 := inv_procPlain p hwf st arg h
      cases hp : V1.procPlain p st arg with
      | mk st1 e =>
        rw [hp] at h1
        dsimp only at h1
        cases e with
        | none =>
          rw [scan_plain_ok_step p st st1 arg (w :: rest') hd' hp]
          exact scan_inv p hwf (w :: rest') st1 h1
        | some err =>
          rw [scan_plain_err_step p st st1 arg (w :: rest') err hd' hp]
          exact h1

/-- Every command call in the final trace of `Parse` was accompanied, in
that same trace, by flag calls covering all mandatory flags of every
scope carrying the called name. -/
theorem Parse_evGood (p : V1.Parser) (hwf : V1.WF p) (args : List String) :
    ∀ n lo, Event.cmdCall n lo ∈ (V1.Parse p args).1.events →
    ∀ c ∈ V1.scopesList p, c.name = n →
    ∀ f ∈ V1.Flags c, f.mandatory = true →
    ∃ v, Event.flagCall f.long v ∈ (V1.Parse p args).1.events := by
  have hinv0 := scan_inv p hwf args (V1.initSt p) (inv_init p)
  rcases hs : V1.scan p (V1.initSt p) args with ⟨st, e⟩
  rw [hs] at hinv0
  dsimp only at hinv0
  cases e with
  | some err =>
    rw [Parse_eq_err p args st err (parse_eq_scan_err p args st err hs)]
    dsimp only
    exact hinv0.evGood
  | none =>
    have h1 := parse_eq_scan_ok p args st hs
    rw [finish_eq] at h1
    cases hcv : V1.checkVisited st.visited st.current with
    | some err =>
      rw [hcv] at h1
      rw [Parse_eq_err p args _ err h1]
      dsimp only
      exact hinv0.evGood
    | none =>
      rw [hcv] at h1
      rw [Parse_eq_ok p args _ h1]
      dsimp only
      rw [List.map_append]
      intro n lo h c hcm hcn f hf hm
      have hembed : ∀ x, x ∈ st.events ++ st.functions.map (V1.runThk st.leftOvers) →
          x ∈ st.events ++
            (st.functions.map (V1.runThk st.leftOvers) ++
              ((match st.currentFunc with | some t => [t] | none => []).map
                (V1.runThk st.leftOvers))) := by
        intro x hx
        rcases List.mem_append.mp hx with hx | hx
        · exact List.mem_append_left _ hx
        · exact List.mem_append_right _ (List.mem_append_left _ hx)
      rcases List.mem_append.mp h with h | h
      · rcases hinv0.evGood n lo h c hcm hcn f hf hm with ⟨v, hv⟩
        exact ⟨v, hembed _ (List.mem_append_left _ hv)⟩
      · rcases List.mem_append.mp h with h | h
        · rcases flush_flagCalls st st.leftOvers hinv0.funcsFlag _ h with ⟨l, v, hev⟩
          simp at hev
        · cases hc : st.currentFunc with
          | none =>
            rw [hc] at h
            simp at h
          | some t =>
            rw [hc] at h
            cases t with
            | flagT l v =>
              simp only [List.map_cons, List.map_nil] at h
              rcases List.mem_singleton.mp h with hev
              simp [V1.runThk] at hev
            | cmdT n0 =>
              rw [hc] at hembed
              simp only [List.map_cons, List.map_nil] at h
              have hev := List.mem_singleton.mp h
              have hn : n = n0 := by
                have := hev
                simp [V1.runThk] at this
                exact this.1
              have hcur : c = st.current :=
                hinv0.cfGood n0 hc c hcm (by rw [hcn, hn])
              have hf' : f ∈ V1.Flags st.current := by rw [← hcur]; exact hf
              rcases mand_events st st.leftOvers hcv hinv0.visEv f hf' hm with ⟨v, hv⟩
              exact ⟨v, hembed _ hv⟩

/-- Claim C1 (amended): in the subcommand.go engine, when the parse
reaches the end of the scan without error having entered a command or
help scope (under a name different from the program name), `Parse`
succeeds and the final trace holds exactly one command call under that
name; it carries the name the scope was entered under together with the
full leftovers returned by `Parse` -- the whole accumulated list, which
may include tokens collected while earlier scopes were active, not only
the tokens of that scope's own activation. -/
theorem claimC1_amended (p : V1.Parser) (hwf : V1.WF p) (args : List String) (n : String)
    (h1 : (V1.parse p args).2 = none)
    (h2 : (V1.parse p args).1.currentFunc = some (V1.Thk.cmdT n))
    (h3 : n ≠ p.root.name) :
    (V1.Parse p args).2 = none ∧
    (V1.Parse p args).1.events.filter (isCmdNamed n) =
      [Event.cmdCall n ((V1.Parse p args).1.leftOvers)] := by
  have hinv0 := scan_inv p hwf args (V1.initSt p) (inv_init p)
  rcases hs : V1.scan p (V1.initSt p) args with ⟨st, e⟩
  rw [hs] at hinv0
  dsimp only at hinv0
  cases e with
  | some err =>
    rw [parse_eq_scan_err p args st err hs] at h1
    simp at h1
  | none =>
    have hp := parse_eq_scan_ok p args st hs
    rw [finish_eq] at hp
    rw [hp] at h1 h2
    dsimp only at h1 h2
    rw [h1] at hp
    rw [Parse_eq_ok p args _ hp]
    refine ⟨rfl, ?_⟩
    dsimp only
    rw [h2]
    dsimp only
    rw [List.map_append, List.filter_append, List.filter_append]
    have hpart1 : st.events.filter (isCmdNamed n) = [] := by
      rw [List.filter_eq_nil_iff]
      intro ev hev
      cases ev with
      | flagCall l v => simp [isCmdNamed]
      | cmdCall m lo =>
        have hm := hinv0.evRoot m lo hev
        simp only [isCmdNamed, beq_iff_eq, Bool.not_eq_true]
        rw [hm]
        intro hmn
        exact absurd hmn.symm (by simpa using h3)
    have hpart2 : (st.functions.map (V1.runThk st.leftOvers)).filter (isCmdNamed n) = [] := by
      rw [List.filter_eq_nil_iff]
      intro ev hev
      rcases flush_flagCalls st st.leftOvers hinv0.funcsFlag ev hev with ⟨l, v, rfl⟩
      simp [isCmdNamed]
    rw [hpart1, hpart2]
    simp [V1.runThk, isCmdNamed]

/-- Counterexample to claim C1 as stated: with the scenario parser,
parsing `["a", "build", "x.txt"]` completes without error and invokes the
build callback with `["a", "x.txt"]`, where `a` was collected while the
root scope -- an earlier scope -- was active, and not with the tokens
`["x.txt"]` of build's own activation; moreover `["-v"]` also completes
without error while the then-active root scope's callback never fires at
all. -/
theorem claimC1_counterexample :
    (V1.Parse appP ["a", "build", "x.txt"]).2 = none ∧
    (V1.Parse appP ["a", "build", "x.txt"]).1.events =
      [Event.cmdCall "app" [], Event.cmdCall "build" ["a", "x.txt"]] ∧
    Event.cmdCall "build" ["x.txt"] ∉
      (V1.Parse appP ["a", "build", "x.txt"]).1.events ∧
    (V1.Parse appP ["-v"]).2 = none ∧
    (V1.Parse appP ["-v"]).1.current = appP.root ∧
    (V1.Parse appP ["-v"]).1.events = [Event.flagCall "verbose" ""] := by
  refine ⟨by decide, by decide, by decide, by decide, by decide, by decide⟩

/-- Witness for claim C1 (amended): the scenario `["build", "x.txt"]`
succeeds with exactly one build command call, carrying the leftovers
`["x.txt"]`. -/
theorem claimC1_witness :
    (V1.Parse appP ["build", "x.txt"]).2 = none ∧
    (V1.Parse appP ["build", "x.txt"]).1.events.filter (isCmdNamed "build") =
      [Event.cmdCall "build" ["x.txt"]] :=
  claimC1_amended appP (by unfold V1.WF; decide) ["build", "x.txt"] "build"
    (by decide) (by decide) (by decide)

/-- Claim C4: the mandatory-flag check fails with `missingMandatory`
naming a mandatory flag and the scope whenever some mandatory flag of the
scope was never visited; in the full engine a terminal callback can only
appear in the trace together with flag calls covering every mandatory
flag of its scope; a successful parse implies the final scope's mandatory
flags were all visited; and parsing `["deploy"]` with the mandatory
option `--target` fails with `missingMandatory` while deploy's callback
never fires. -/
theorem claimC4 :
    (∀ (c : V1.Cmd) (visited : List Flag) (f : Flag),
      f ∈ V1.Flags c → f.mandatory = true → (∀ v ∈ visited, v.long ≠ f.long) →
      ∃ g, g ∈ V1.Flags c ∧ g.mandatory = true ∧
        V1.checkVisited visited c = some (PError.missingMandatory g c.name)) ∧
    (∀ (p : V1.Parser) (args : List String), V1.WF p →
      ∀ n lo, Event.cmdCall n lo ∈ (V1.Parse p args).1.events →
      ∀ c ∈ V1.scopesList p, c.name = n →
      ∀ f ∈ V1.Flags c, f.mandatory = true →
      ∃ v, Event.flagCall f.long v ∈ (V1.Parse p args).1.events) ∧
    (∀ (p : V1.Parser) (args : List String), (V1.Parse p args).2 = none →
      ∀ f ∈ V1.Flags (V1.Parse p args).1.current, f.mandatory = true →
      ∃ v ∈ (V1.Parse p args).1.visited, v.long = f.long) ∧
    (V1.Parse deployP ["deploy"]).2 =
      some (PError.missingMandatory targetFlag "deploy") ∧
    (V1.Parse deployP ["deploy"]).1.events = [Event.cmdCall "app" []] := by
  refine ⟨?_, ?_, ?_, by decide, by decide⟩
  · intro c visited f hf hm hnv
    unfold V1.checkVisited
    cases hfind : (V1.Flags c).find?
        (fun f => f.mandatory && !(visited.any (fun v => v.long == f.long))) with
    | none =>
      exfalso
      rw [List.find?_eq_none] at hfind
      apply hfind f hf
      rw [hm]
      simp only [Bool.true_and, Bool.not_eq_true', Bool.not_eq_true]
      cases hany : visited.any (fun v => v.long == f.long) with
      | false => rfl
      | true =>
        exfalso
        rcases List.any_eq_true.mp hany with ⟨v, hv, hveq⟩
        exact hnv v hv (by simpa using hveq)
    | some g =>
      have hgp := List.find?_some hfind
      have hgm := List.mem_of_find?_eq_some hfind
      simp only [Bool.and_eq_true] at hgp
      exact ⟨g, hgm, hgp.1, rfl⟩
  · intro p args hwf
    exact Parse_evGood p hwf args
  · intro p args he f hf hm
    rcases hs : V1.scan p (V1.initSt p) args with ⟨st, e⟩
    cases e with
    | some err =>
      rw [Parse_eq_err p args st err (parse_eq_scan_err p args st err hs)] at he
      simp at he
    | none =>
      have hp := parse_eq_scan_ok p args st hs
      rw [finish_eq] at hp
      cases hcv : V1.checkVisited st.visited st.current with
      | some err =>
        rw [hcv] at hp
        rw [Parse_eq_err p args _ err hp] at he
        simp at he
      | none =>
        rw [hcv] at hp
        have hPe := Parse_eq_ok p args _ hp
        rw [hPe] at hf
        dsimp only at hf
        rcases (checkVisited_eq_none_iff _ _).mp hcv f hf hm with ⟨v, hv, hl⟩
        rw [hPe]
        dsimp only
        exact ⟨v, hv, hl⟩

/-- Witness for claim C4: in the trace of `["deploy", "-t", "prod"]`, the
deploy command call is covered by a target flag call. -/
theorem claimC4_witness :
    ∃ v, Event.flagCall "target" v ∈
      (V1.Parse deployP ["deploy", "-t", "prod"]).1.events :=
  claimC4.2.1 deployP ["deploy", "-t", "prod"] (by unfold V1.WF; decide)
    "deploy" [] (by decide) deployCmd (by decide) (by decide)
    targetFlag (by decide) (by decide)

/-- Claim C2 (amended): in the subcommand.go engine, the leftover list
returned by `Parse` is always a sublist of the argument vector (so the
original relative order is preserved, on success and on failure alike),
and, on vectors with no flag-shaped tokens against a parser with no
mandatory flags, the parse succeeds and every scanned plain token that
matches neither a registered command name nor the help name appears among
the returned leftovers, in order.  (In the part_000 revision `Parse`
never returns the leftovers; see the counterexample.) -/
theorem claimC2_amended :
    (∀ (p : V1.Parser) (args : List String),
      List.Sublist (V1.Parse p args).1.leftOvers args) ∧
    (∀ (p : V1.Parser) (st : V1.St) (arg : String),
      V1.checkVisited st.visited st.current = none →
      V1.nonmatching p arg = true →
      (V1.procPlain p st arg).2 = none ∧
      (V1.procPlain p st arg).1.leftOvers = st.leftOvers ++ [arg]) ∧
    (∀ (p : V1.Parser) (args : List String),
      V1.MandFree p → (∀ x ∈ args, hasPrefix x "-" = false) →
      (V1.Parse p args).2 = none ∧
      List.Sublist (args.filter (V1.nonmatching p)) (V1.Parse p args).1.leftOvers) := by
  refine ⟨?_, ?_, ?_⟩
  · intro p args
    rw [Parse_leftOvers]
    rcases scan_leftOvers_sublist p args (V1.initSt p) with ⟨d, hlo, hsub⟩
    rw [hlo]
    exact hsub
  · intro p st arg hcv hnm
    rw [procPlain_eq p st arg hcv]
    have hfalse : ((((p.commands.find? (fun e => e.1 == arg)).map (fun e => e.2)).isSome
        || arg == p.help.name) && st.current.name != p.help.name) = false := by
      unfold V1.nonmatching at hnm
      rw [Bool.and_eq_true] at hnm
      rcases ho : p.commands.find? (fun e => e.1 == arg) with _ | e0
      · have hb : (arg == p.help.name) = false := by
          have := hnm.2
          rcases hbe : arg == p.help.name with _ | _
          · rfl
          · rw [bne] at this
            rw [hbe] at this
            simp at this
        rw [ho, hb]
        rfl
      · rw [ho] at hnm
        simp at hnm
    rw [hfalse]
    dsimp only
    exact ⟨rfl, rfl⟩
  · intro p args hmf hflag
    have hroot : (V1.initSt p).current ∈ V1.scopesList p :=
      List.mem_cons_self _ _
    rcases hsc : V1.scan p (V1.initSt p) args with ⟨st, e⟩
    have hfacts := scan_plainOnly p hmf args (V1.initSt p) hflag hroot
    rw [hsc] at hfacts
    rcases hfacts with ⟨he, hcur, d, hlo, hsub⟩
    dsimp only at he hcur hlo
    subst he
    have h1 := parse_eq_scan_ok p args st hsc
    rw [finish_eq] at h1
    have hcv : V1.checkVisited st.visited st.current = none :=
      checkVisited_of_not_mandatory st.visited st.current (hmf st.current hcur)
    rw [hcv] at h1
    rw [Parse_eq_ok p args _ h1]
    dsimp only
    refine ⟨rfl, ?_⟩
    rw [hlo]
    simp only [V1.initSt, List.nil_append]
    exact hsub

/-- Counterexample to claim C2 as stated, on the part_000 revision: its
`Parse` declares the leftover result but never assigns it.  Parsing
`["help", "x"]` succeeds, `x` matches neither a registered command name
nor the help name and flows to the help callback as its leftover, yet the
leftover list returned by `Parse` is empty. -/
theorem claimC2_counterexample :
    (V2.Parse plainP2 ["help", "x"]).2.2 = none ∧
    (V2.Parse plainP2 ["help", "x"]).2.1 = [] ∧
    "x" ∉ (V2.Parse plainP2 ["help", "x"]).2.1 ∧
    plainP2.commands.find? (fun e => e.1 == "x") = none ∧
    "x" ≠ plainP2.help.name ∧
    Event.cmdCall "help" ["x"] ∈ (V2.Parse plainP2 ["help", "x"]).1 := by
  refine ⟨by decide, by decide, by decide, by decide, by decide, by decide⟩

/-- Witness for claim C2 (amended): two unknown plain tokens pass through
to the returned leftovers in order, with no error. -/
theorem claimC2_witness :
    List.Sublist (V1.Parse appP ["paco", "pepe"]).1.leftOvers ["paco", "pepe"] ∧
    (V1.procPlain appP stAfterX "zzz").1.leftOvers = ["x", "zzz"] ∧
    (V1.Parse appP ["paco", "pepe"]).2 = none ∧
    List.Sublist (["paco", "pepe"].filter (V1.nonmatching appP))
      (V1.Parse appP ["paco", "pepe"]).1.leftOvers :=
  ⟨claimC2_amended.1 appP ["paco", "pepe"],
   (claimC2_amended.2.1 appP stAfterX "zzz" (by decide) (by decide)).2,
   (claimC2_amended.2.2 appP ["paco", "pepe"]
      (by unfold V1.MandFree; decide) (by decide)).1,
   (claimC2_amended.2.2 appP ["paco", "pepe"]
      (by unfold V1.MandFree; decide) (by decide)).2⟩

/-- One-step unfolding of `flagMatches` on a non-empty token list. -/
theorem flagMatches_cons (c : V1.Cmd) (arg : String) (rest : List String) :
    V1.flagMatches c (arg :: rest) =
      if hasPrefix arg "-" = true then
        match V1.resolveFlag c arg with
        | none => none
        | some opt =>
          match opt.type with
          | FlagType.Option =>
            match rest with
            | [] => none
            | v :: rest' => (V1.flagMatches c rest').map (fun ms => (opt, v) :: ms)
          | FlagType.Switch => (V1.flagMatches c rest).map (fun ms => (opt, "") :: ms)
      else none := by
  simp only [V1.flagMatches]

/-- On a token list made only of resolvable flags with their values, the
scan succeeds and just accumulates the corresponding deferred calls and
visited flags. -/
theorem scan_flagMatches (p : V1.Parser) :
    ∀ (args : List String) (ms : List (Flag × String)) (st : V1.St),
      V1.flagMatches st.current args = some ms →
      V1.scan p st args =
        ({ st with functions := st.functions ++ ms.map (fun m => V1.Thk.flagT m.1.long m.2),
                   visited := st.visited ++ ms.map (fun m => m.1) }, none)
  | [], ms, st, h => by
    simp only [V1.flagMatches, Option.some.injEq] at h
    subst h
    simp [V1.scan]
  | [arg], ms, st, h => by
    rw [flagMatches_cons] at h
    by_cases hd : hasPrefix arg "-"
    · rw [if_pos hd] at h
      cases hr : V1.resolveFlag st.current arg with
      | none => rw [hr] at h; exact absurd h (by simp)
      | some opt =>
        rw [hr] at h
        dsimp only at h
        cases ht : opt.type with
        | Option =>
          rw [ht] at h
          exact absurd h (by simp)
        | Switch =>
          rw [ht] at h
          dsimp only at h
          simp only [V1.flagMatches, Option.map_some', Option.some.injEq] at h
          subst h
          rw [scan_switch_step p st arg [] opt hd hr ht]
          simp [V1.scan]
    · rw [if_neg hd] at h
      exact absurd h (by simp)
  | arg :: v :: rest', ms, st, h => by
    rw [flagMatches_cons] at h
    by_cases hd : hasPrefix arg "-"
    · rw [if_pos hd] at h
      cases hr : V1.resolveFlag st.current arg with
      | none => rw [hr] at h; exact absurd h (by simp)
      | some opt =>
        rw [hr] at h
        dsimp only at h
        cases ht : opt.type with
        | Option =>
          rw [ht] at h
          dsimp only at h
          cases hm : V1.flagMatches st.current rest' with
          | none => rw [hm] at h; exact absurd h (by simp)
          | some ms' =>
            rw [hm, Option.map_some'] at h
            simp only [Option.some.injEq] at h
            subst h
            rw [scan_value_step p st arg v rest' opt hd hr ht]
            rw [scan_flagMatches p rest' ms' _ (by simpa using hm)]
            simp
        | Switch =>
          rw [ht] at h
          dsimp only at h
          cases hm : V1.flagMatches st.current (v :: rest') with
          | none => rw [hm] at h; exact absurd h (by simp)
          | some ms' =>
            rw [hm, Option.map_some'] at h
            simp only [Option.some.injEq] at h
            subst h
            rw [scan_switch_step p st arg (v :: rest') opt hd hr ht]
            rw [scan_flagMatches p (v :: rest') ms' _ (by simpa using hm)]
            simp
    · rw [if_neg hd] at h
      exact absurd h (by simp)

/-- Claim C7 (amended): on a token list consisting only of flags that
resolve in the root scope with their values present and no plain tokens,
provided every mandatory flag of the root scope is among the matches, the
parse succeeds and each matched flag's callback fires exactly once per
occurrence with the flag's long name and the consumed value (or the empty
string for a switch), in left-to-right token order, with no leftovers. -/
theorem claimC7_amended (p : V1.Parser) (args : List String) (ms : List (Flag × String))
    (h1 : V1.flagMatches p.root args = some ms)
    (h2 : ∀ f ∈ V1.Flags p.root, f.mandatory = true → ∃ m ∈ ms, m.1.long = f.long) :
    (V1.Parse p args).2 = none ∧
    (V1.Parse p args).1.events = ms.map (fun m => Event.flagCall m.1.long m.2) ∧
    (V1.Parse p args).1.leftOvers = [] := by
  have hcv : V1.checkVisited (ms.map (fun m => m.1)) p.root = none := by
    rw [checkVisited_eq_none_iff]
    intro f hf hm
    rcases h2 f hf hm with ⟨m, hmm, hml⟩
    exact ⟨m.1, List.mem_map.mpr ⟨m, hmm, rfl⟩, hml⟩
  have hscan : V1.scan p (V1.initSt p) args =
      ({ visited := ms.map (fun m => m.1),
         functions := ms.map (fun m => V1.Thk.flagT m.1.long m.2),
         current := p.root, currentFunc := none, onCommandPending := true,
         leftOvers := [], events := [] }, none) :=
    scan_flagMatches p args ms (V1.initSt p) h1
  have hparse : V1.parse p args =
      ({ visited := ms.map (fun m => m.1),
         functions := ms.map (fun m => V1.Thk.flagT m.1.long m.2),
         current := p.root, currentFunc := none, onCommandPending := true,
         leftOvers := [], events := [] }, none) := by
    unfold V1.parse
    rw [hscan]
    unfold V1.finish
    dsimp only
    rw [hcv]
  unfold V1.Parse
  rw [hparse]
  dsimp only
  refine ⟨rfl, ?_, rfl⟩
  rw [List.map_map]
  rfl

/-- Counterexample to claim C7 as stated: `["--verbose"]` consists only of
flags resolving in the root scope with no plain tokens, yet the parse
fails (the mandatory option `--target` was never supplied) and not even
the matched verbose callback fires. -/
theorem claimC7_counterexample :
    V1.flagMatches rootMandP.root ["--verbose"] = some [(verboseFlag, "")] ∧
    (V1.Parse rootMandP ["--verbose"]).2 =
      some (PError.missingMandatory targetFlag "app") ∧
    (V1.Parse rootMandP ["--verbose"]).1.events = [] := by
  refine ⟨by decide, by decide, by decide⟩

/-- Witness for claim C7 (amended): `["-t", "prod", "--verbose"]` fires
the target callback with `prod` and then the verbose callback, in token
order, with no error and no leftovers. -/
theorem claimC7_witness :
    (V1.Parse rootMandP ["-t", "prod", "--verbose"]).2 = none ∧
    (V1.Parse rootMandP ["-t", "prod", "--verbose"]).1.events =
      [Event.flagCall "target" "prod", Event.flagCall "verbose" ""] ∧
    (V1.Parse rootMandP ["-t", "prod", "--verbose"]).1.leftOvers = [] :=
  claimC7_amended rootMandP ["-t", "prod", "--verbose"]
    [(targetFlag, "prod"), (verboseFlag, "")] (by decide) (by decide)

/-- Claim C10: supplying a registered flag several times is never
rejected: `checkVisited` depends only on which long names occur in the
visited list (so repeats can never make it fail when a single occurrence
passes), and, end to end on the subcommand.go engine, a mandatory switch
given twice parses without error with its callback executed once per
occurrence, in token order. -/
theorem claimC10 :
    (∀ (c : V1.Cmd) (v w : List Flag),
      (∀ l : String, (∃ g ∈ v, g.long = l) ↔ (∃ g ∈ w, g.long = l)) →
      V1.checkVisited v c = V1.checkVisited w c) ∧
    (V1.Parse rootSwP ["-s", "-s"]).2 = none ∧
    (V1.Parse rootSwP ["-s", "-s"]).1.events =
      [Event.flagCall "sw" "", Event.flagCall "sw" ""] := by
  refine ⟨?_, by decide, by decide⟩
  intro c v w h
  unfold V1.checkVisited
  rw [find?_congr (V1.Flags c)]
  intro f _
  have : (v.any (fun g => g.long == f.long)) = (w.any (fun g => g.long == f.long)) := by
    rcases hv : v.any (fun g => g.long == f.long) with _ | _
    · rcases hw : w.any (fun g => g.long == f.long) with _ | _
      · rfl
      · exfalso
        rcases List.any_eq_true.mp hw with ⟨g, hg, hgl⟩
        have := (h f.long).mpr ⟨g, hg, by simpa using hgl⟩
        rcases this with ⟨g', hg', hgl'⟩
        have : v.any (fun g => g.long == f.long) = true :=
          List.any_eq_true.mpr ⟨g', hg', by simpa using hgl'⟩
        rw [hv] at this
        exact absurd this (by simp)
    · rcases List.any_eq_true.mp hv with ⟨g, hg, hgl⟩
      have := (h f.long).mp ⟨g, hg, by simpa using hgl⟩
      rcases this with ⟨g', hg', hgl'⟩
      exact (List.any_eq_true.mpr ⟨g', hg', by simpa using hgl'⟩).symm
  rw [this]

/-- Witness for claim C10: the duplicated visited list `[sw, sw]` passes
`checkVisited` exactly as the single occurrence does. -/
theorem claimC10_witness :
    V1.checkVisited [swFlag, swFlag] rootSwP.root =
      V1.checkVisited [swFlag] rootSwP.root :=
  claimC10.1 rootSwP.root [swFlag, swFlag] [swFlag]
    (by intro l; constructor <;> (intro ⟨g, hg, hl⟩; simp at hg; exact ⟨swFlag, by simp, hg ▸ hl⟩))

end Subcommand
